import Mathlib

/-!
Verification of the MinDF tabular container (`src/__init__.py`) against its
natural-language specification.  The Python class is shallowly embedded:

* cell values (`Value`) are text, integers or floating-point numbers;
* Python floats are modelled exactly as sign/odd-mantissa/binary-exponent
  dyadics (`Dyadic`), with `float(...)` string parsing implemented as
  correctly-rounded (round-half-to-even) conversion to the IEEE binary64
  grid, using only integer arithmetic;
* the `MinDF` object is a record of its `data` association list (Python
  dict, insertion ordered) and its `_length` field;
* fallible operations return `Except PyError`, where `PyError` mirrors the
  exception classes the source raises;
* file output of `to_csv` is modelled as the list of strings passed to
  `f.write`, and `from_csv` consumes the resulting file content.

All recursion is structural (where Python iterates on numbers, a fuel
argument bounded by the number itself is used) so every definition
evaluates inside the kernel.
-/

set_option maxRecDepth 16000

deriving instance DecidableEq for Except

/-- The apostrophe character, kept out of string literals. -/
def apoc : Char := Char.ofNat 39

/-- The apostrophe as a one-character string (used by the f-strings of the
source, e.g. `f"'{colname}' is not a column name"`). -/
def apos : String := ⟨[apoc]⟩

/-- Decimal digit character for a value `d < 10`. -/
def decChar (d : Nat) : Char := Char.ofNat (48 + d)

/-- Big-endian decimal digits of `n`; the first argument is fuel (callers
pass `n` itself, and the recursion depth is the number of digits). -/
def natDigitsAux : Nat → Nat → List Char
  | 0, _ => []
  | f+1, n => if n = 0 then [] else natDigitsAux f (n / 10) ++ [decChar (n % 10)]

/-- Python `str` of a natural number. -/
def natStr (n : Nat) : String := if n = 0 then "0" else ⟨natDigitsAux n n⟩

/-- Python `str` of an integer (decimal digits with a leading minus sign for
negative values). -/
def intStr (n : Int) : String := (if n < 0 then "-" else "") ++ natStr n.natAbs

/-- Floor of the base-2 logarithm, by fuel recursion (`natLog2 0 = 0`). -/
def log2Fuel : Nat → Nat → Nat
  | 0, _ => 0
  | f+1, n => if n ≤ 1 then 0 else log2Fuel f (n / 2) + 1

/-- Floor of the base-2 logarithm of `n` (0 for `n = 0`). -/
def natLog2 (n : Nat) : Nat := log2Fuel n n

/-- A finite Python float: the value `(-1)^neg * m * 2^exp`.  Values built
by the rounding functions below are canonical: `m` is odd, or `m = 0` with
`neg = false` and `exp = 0`.  The sign of an IEEE zero is not tracked
(Python collapses `0.0 == -0.0` everywhere the source looks at values). -/
structure Dyadic where
  neg : Bool
  m : Nat
  exp : Int
deriving DecidableEq, Repr

/-- Normalisation loop: halve the mantissa while it is even, bumping the
exponent.  Fuel-recursive; callers pass the mantissa as fuel. -/
def normAux : Nat → Bool → Nat → Int → Dyadic
  | 0, neg, m, e => ⟨neg, m, e⟩
  | f+1, neg, m, e => if m % 2 = 0 ∧ m ≠ 0 then normAux f neg (m / 2) (e + 1) else ⟨neg, m, e⟩

/-- Build a canonical dyadic from a sign, mantissa and exponent. -/
def mkDyadic (neg : Bool) (m : Nat) (e : Int) : Dyadic :=
  if m = 0 then ⟨false, 0, 0⟩ else normAux m neg m e

/-- Python `float.is_integer` on a canonical dyadic. -/
def Dyadic.is_integer (d : Dyadic) : Bool := d.m = 0 ∨ 0 ≤ d.exp

/-- Python `int(x)` for a float that is an integer ( junk when `exp < 0`;
the source only converts after an `is_integer` check). -/
def Dyadic.toInt (d : Dyadic) : Int :=
  (if d.neg then -1 else 1) * (d.m * 2 ^ d.exp.toNat : Nat)

/-- A Python float: a finite dyadic, an infinity, or a NaN. -/
inductive PyFloat where
  | finite (d : Dyadic)
  | inf
  | neginf
  | nan
deriving DecidableEq, Repr

/-- Python `float.is_integer`. -/
def PyFloat.is_integer : PyFloat → Bool
  | .finite d => d.is_integer
  | _ => false

/-- Python `int(x)` on a float (only reached after `is_integer` in the
source, so the non-finite cases are junk values). -/
def PyFloat.toInt : PyFloat → Int
  | .finite d => d.toInt
  | _ => 0

/-- Does `2 ^ k ≤ n / d` (for naturals `n`, `d ≥ 1` and an integer `k`)? -/
def le2pow (k : Int) (n d : Nat) : Bool :=
  if 0 ≤ k then d * 2 ^ k.toNat ≤ n else d ≤ n * 2 ^ (-k).toNat

/-- Floor of the base-2 logarithm of the positive rational `n / d`: the
bit-length difference of `n` and `d`, corrected downward by one when the
resulting power of two overshoots. -/
def posFloorLog2 (n d : Nat) : Int :=
  let e0 : Int := (natLog2 n : Int) - (natLog2 d : Int)
  if le2pow e0 n d then e0 else e0 - 1

/-- The binary64 unit in the last place at the magnitude of `n / d`:
`⌊log2⌋ - 52`, floored at the subnormal grid `-1074`. -/
def posUlp (n d : Nat) : Int := max (posFloorLog2 n d - 52) (-1074)

/-- Numerator of `(n / d) / 2 ^ ulp` as an integer fraction. -/
def scaledNum (n d : Nat) : Nat :=
  if 0 ≤ posUlp n d then n else n * 2 ^ (-(posUlp n d)).toNat

/-- Denominator of `(n / d) / 2 ^ ulp` as an integer fraction. -/
def scaledDen (n d : Nat) : Nat :=
  if 0 ≤ posUlp n d then d * 2 ^ (posUlp n d).toNat else d

/-- Integer division with round-half-to-even. -/
def halfEvenDiv (N Dd : Nat) : Nat :=
  let q := N / Dd
  let r := N % Dd
  if 2 * r < Dd then q else if Dd < 2 * r then q + 1 else if q % 2 = 0 then q else q + 1

/-- Round the positive rational `n / d` (`n, d ≥ 1`) to the IEEE binary64
grid with round-half-to-even, returning the mantissa/ulp-exponent pair, or
`none` on overflow to infinity (value at least `2 ^ 1024`).  Subnormals
flush into the fixed `2 ^ (-1074)` grid and may round to zero. -/
def roundPosCore (n d : Nat) : Option (Nat × Int) :=
  let ulp := posUlp n d
  let m := halfEvenDiv (scaledNum n d) (scaledDen n d)
  if (1024 : Int) ≤ ulp then none
  else if 1 ≤ m ∧ (1024 : Int) - ulp ≤ (natLog2 m : Int) then none
  else some (m, ulp)

/-- Round the signed decimal `(-1)^neg * D * 10^e10` to a Python float,
exactly as CPython's correctly-rounded `strtod` does. -/
def roundDec (neg : Bool) (D : Nat) (e10 : Int) : PyFloat :=
  if D = 0 then .finite ⟨false, 0, 0⟩
  else
    let n : Nat := if 0 ≤ e10 then D * 10 ^ e10.toNat else D
    let d : Nat := if 0 ≤ e10 then 1 else 10 ^ (-e10).toNat
    match roundPosCore n d with
    | none => if neg then .neginf else .inf
    | some (m, ulp) => .finite (mkDyadic neg m ulp)

/-- The characters Python `str.strip()` removes (ASCII whitespace; the rare
unicode whitespace code points are not modelled). -/
def isPyWs (c : Char) : Bool :=
  c = ' ' ∨ c = '\t' ∨ c = '\n' ∨ c = '\x0d' ∨ c = Char.ofNat 11 ∨ c = Char.ofNat 12

/-- Python `str.strip()` on a character list. -/
def trimChars (cs : List Char) : List Char :=
  ((cs.dropWhile isPyWs).reverse.dropWhile isPyWs).reverse

/-- ASCII decimal digit test. -/
def isDigitC (c : Char) : Bool := 48 ≤ c.toNat ∧ c.toNat ≤ 57

/-- Value of an ASCII decimal digit. -/
def digitV (c : Char) : Nat := c.toNat - 48

/-- Numeric value of a big-endian digit list. -/
def digitsVal (cs : List Char) : Nat := cs.foldl (fun a c => 10 * a + digitV c) 0

/-- Lower-case an ASCII letter (identity elsewhere). -/
def lowC (c : Char) : Char :=
  if 65 ≤ c.toNat ∧ c.toNat ≤ 90 then Char.ofNat (c.toNat + 32) else c

/-- Strip one optional leading sign, returning whether it was a minus. -/
def takeSignC (cs : List Char) : Bool × List Char :=
  match cs with
  | [] => (false, [])
  | c :: t => if c = '+' then (false, t) else if c = '-' then (true, t) else (false, c :: t)

/-- Split at the first character satisfying `p`: the part before it, and
(some) the part after it, or `none` when no character matches. -/
def splitFirst (p : Char → Bool) : List Char → List Char × Option (List Char)
  | [] => ([], none)
  | c :: cs =>
    if p c then ([], some cs)
    else
      let r := splitFirst p cs
      (c :: r.1, r.2)

/-- Parse a nonempty all-digit character list. -/
def parseDigits (cs : List Char) : Option Nat :=
  if cs ≠ [] ∧ cs.all isDigitC then some (digitsVal cs) else none

/-- Parse an optionally signed nonempty digit list as an integer. -/
def parseSignedInt (cs : List Char) : Option Int :=
  let s := takeSignC cs
  (parseDigits s.2).map (fun v => if s.1 then -(v : Int) else (v : Int))

/-- Exponent marker test (`e` or `E`). -/
def isExpChar (c : Char) : Bool := lowC c = 'e'

/-- Python `float(string)` on a character list: optional surrounding
whitespace and sign, then `inf`/`infinity`/`nan` (any case) or a decimal
mantissa with optional fraction dot and optional exponent, converted with
correct rounding.  (Underscore digit separators, accepted by recent
CPython, are not modelled.)  Returns `none` where Python raises
`ValueError`. -/
def floatOfChars (cs0 : List Char) : Option PyFloat :=
  let s := takeSignC (trimChars cs0)
  let neg := s.1
  let cs := s.2
  let ls := cs.map lowC
  if ls = "inf".data ∨ ls = "infinity".data then some (if neg then .neginf else .inf)
  else if ls = "nan".data then some .nan
  else
    let me := splitFirst isExpChar cs
    let expVal : Option Int := match me.2 with
      | none => some 0
      | some ec => parseSignedInt ec
    match expVal with
    | none => none
    | some e10 =>
      let ifp := splitFirst (fun c => c = '.') me.1
      let ip := ifp.1
      let fp := (ifp.2).getD []
      if (ip ++ fp) ≠ [] ∧ (ip ++ fp).all isDigitC then
        some (roundDec neg (digitsVal (ip ++ fp)) (e10 - fp.length))
      else none

/-- Python `float(string)`. -/
def floatOfString (s : String) : Option PyFloat := floatOfChars s.data

/-- A cell value: text, integer, or floating-point (the three value kinds
the spec's data model names). -/
inductive Value where
  | VStr (s : String)
  | VInt (n : Int)
  | VFloat (f : PyFloat)
deriving DecidableEq, Repr

/-- Exact finite decimal expansion of a canonical dyadic magnitude
`m * 2 ^ exp` with `exp < 0`: the digits of `m * 5 ^ (-exp)` with a decimal
point `-exp` places from the right. -/
def dyadicFracStr (m : Nat) (k : Nat) : String :=
  let ds := natDigitsAux (m * 5 ^ k) (m * 5 ^ k)
  if ds.length ≤ k then "0." ++ ⟨List.replicate (k - ds.length) '0'⟩ ++ ⟨ds⟩
  else ⟨ds.take (ds.length - k)⟩ ++ "." ++ ⟨ds.drop (ds.length - k)⟩

/-- Python `str` of a float.  Integral values print with a trailing `.0`,
fractional values as their exact (finite) decimal expansion.  CPython
prints the shortest decimal that rounds back to the same float and switches
to exponent notation for very large or small magnitudes; both strings parse
back to the same float, and no theorem below depends on the spelling of a
non-integral float.  Non-canonical dyadics never reach this function. -/
def pyFloatStr : PyFloat → String
  | .inf => "inf"
  | .neginf => "-inf"
  | .nan => "nan"
  | .finite d =>
    (if d.neg then "-" else "") ++
      (if 0 ≤ d.exp then natStr (d.m * 2 ^ d.exp.toNat) ++ ".0"
       else dyadicFracStr d.m (-d.exp).toNat)

/-- Python `str` of a cell value. -/
def strOfValue : Value → String
  | .VStr s => s
  | .VInt n => intStr n
  | .VFloat f => pyFloatStr f

/-- The exceptions the source raises (plus `IndexError`, which list
indexing would raise, and `StopIteration` from `next` on an empty file). -/
inductive PyError where
  | ValueError (msg : String)
  | TypeError (msg : String)
  | KeyError (key : String)
  | IndexError (msg : String)
  | StopIteration
deriving DecidableEq, Repr

/-- The MinDF object: its `data` dict as an insertion-ordered association
list, and its `_length` attribute. -/
structure MinDF where
  data : List (String × List Value)
  _length : Nat
deriving DecidableEq, Repr

/-- The message of the `ValueError` raised by `MinDF.__init__` on a column
length mismatch. -/
def lengthMismatchMsg (firstKey : String) (expected : Nat) (key : String) (itemLen : Nat) : String :=
  "Length mismatch -- " ++ apos ++ firstKey ++ apos ++ " has length " ++ natStr expected ++
    ", but " ++ apos ++ key ++ apos ++ " has length " ++ natStr itemLen

/-- `MinDF.__init__`: with no columns the store is empty; otherwise every
column length is checked against the first column's (in insertion order),
raising `ValueError` at the first offender, and `_length` is set to the
common length (the `lengths.pop()` of the source, whose set is then the
singleton of the expected length). -/
def mindf (kwargs : List (String × List Value)) : Except PyError MinDF :=
  match kwargs with
  | [] => .ok ⟨[], 0⟩
  | (firstKey, firstVal) :: _ =>
    let expected := firstVal.length
    match kwargs.find? (fun p => p.2.length ≠ expected) with
    | some (key, item) => .error (.ValueError (lengthMismatchMsg firstKey expected key item.length))
    | none => .ok ⟨kwargs, expected⟩

/-- The message of the `TypeError` raised by `MinDF.__len__`. -/
def lenMsg : String :=
  "can" ++ apos ++ "t use len() with a MinDF object.\n" ++
    "Use one of these instead:\n" ++ "   df.count_rows()\n" ++ "   df.count_cols()"

/-- `MinDF.__len__`: unconditionally raises `TypeError`. -/
def mindfLen (_df : MinDF) : Except PyError Nat := .error (.TypeError lenMsg)

/-- `MinDF.count_rows`. -/
def MinDF.count_rows (df : MinDF) : Nat := df._length

/-- `MinDF.count_cols`. -/
def MinDF.count_cols (df : MinDF) : Nat := df.data.length

/-- `MinDF.keys`: the column names in insertion order. -/
def MinDF.keysList (df : MinDF) : List String := df.data.map Prod.fst

/-- `MinDF.col`: the stored sequence for a present name, `ValueError`
otherwise. -/
def MinDF.col (df : MinDF) (colname : String) : Except PyError (List Value) :=
  match df.data.lookup colname with
  | none => .error (.ValueError (apos ++ colname ++ apos ++ " is not a column name"))
  | some vs => .ok vs

/-- Python list indexing `values[index]` (negative indices count from the
end; out of range raises `IndexError`). -/
def pyListGet (vs : List Value) (i : Int) : Except PyError Value :=
  let j : Int := if i < 0 then (vs.length : Int) + i else i
  if 0 ≤ j then
    if j < (vs.length : Int) then .ok (vs.getD j.toNat (.VStr ""))
    else .error (.IndexError "list index out of range")
  else .error (.IndexError "list index out of range")

/-- The message of the `ValueError` raised by `MinDF.row` on a failed
bounds check. -/
def rowRangeMsg (index : Int) (len : Nat) : String :=
  "index " ++ intStr index ++ " is out of range; number of rows is " ++ natStr len

/-- `MinDF.row`: raises `ValueError` when `abs(index) >= self._length`,
otherwise builds the column-name-to-value mapping (in column order) by
Python list indexing. -/
def MinDF.row (df : MinDF) (index : Int) : Except PyError (List (String × Value)) :=
  if df._length ≤ index.natAbs then .error (.ValueError (rowRangeMsg index df._length))
  else df.data.mapM (fun p => (pyListGet p.2 index).map (fun v => (p.1, v)))

/-- A key passed to `MinDF.__getitem__`: a string, an integer, or (standing
for every other type) a float. -/
inductive PyKey where
  | pstr (s : String)
  | pint (i : Int)
  | pfloat (f : PyFloat)
deriving DecidableEq, Repr

/-- Result of `MinDF.__getitem__`: a column's sequence or a row mapping. -/
inductive GetResult where
  | gcol (vs : List Value)
  | grow (r : List (String × Value))
deriving DecidableEq, Repr

/-- The `TypeError` message of `MinDF.__getitem__` for a float key
(`f"Invalid key type: {type(key)}"`). -/
def invalidKeyMsgFloat : String :=
  "Invalid key type: <class " ++ apos ++ "float" ++ apos ++ ">"

/-- `MinDF.__getitem__`: a string key is a raw `self.data[key]` dict access
(raising `KeyError` when absent), an integer key delegates to `row`, and
any other key type raises `TypeError`. -/
def MinDF.getitem (df : MinDF) : PyKey → Except PyError GetResult
  | .pstr s =>
    match df.data.lookup s with
    | some vs => .ok (.gcol vs)
    | none => .error (.KeyError s)
  | .pint i => (df.row i).map .grow
  | .pfloat _ => .error (.TypeError invalidKeyMsgFloat)

/-- `MinDF._get_column_widths`: per column, the running maximum of the
column name's length and each cell's rendered length. -/
def MinDF.getColumnWidths (df : MinDF) : List (String × Nat) :=
  df.data.map (fun p => (p.1, p.2.foldl (fun w v => max w (strOfValue v).length) p.1.length))

/-- Join character lists with a separator (Python `sep.join`). -/
def joinChar (sep : Char) : List (List Char) → List Char
  | [] => []
  | [x] => x
  | x :: xs => x ++ sep :: joinChar sep xs

/-- Python `','.join` of strings. -/
def joinComma (fields : List String) : String := ⟨joinChar ',' (fields.map String.data)⟩

/-- Split a character list on a separator (Python `str.split(sep)`: the
empty list yields one empty field). -/
def splitChar (sep : Char) : List Char → List (List Char)
  | [] => [[]]
  | c :: cs =>
    let r := splitChar sep cs
    if c = sep then [] :: r
    else
      match r with
      | [] => [[c]]
      | h :: t => (c :: h) :: t

/-- `MinDF.to_csv`, as the list of strings the source passes to `f.write`:
a header line of the comma-joined column names, then one comma-joined line
per row index `0 .. count_rows - 1`, each write ending in a newline.  Cell
access `self.data[col][i]` is in bounds whenever the store satisfies its
length invariant. -/
def MinDF.csvWrites (df : MinDF) : List String :=
  (joinComma df.keysList ++ "\n") ::
    (List.range df.count_rows).map
      (fun i => joinComma (df.data.map (fun p => strOfValue (p.2.getD i (.VStr "")))) ++ "\n")

/-- `MinDF.to_csv`: with no columns the method returns before opening the
file (`none` = no file side effect); otherwise the file content is the
concatenation of the writes. -/
def MinDF.to_csv (df : MinDF) : Option String :=
  if df.data.isEmpty then none else some ⟨(df.csvWrites.map String.data).flatten⟩

/-- Python text-file line iteration: split on newlines, one line per
terminator, with an unterminated final chunk forming a last line.  The
`'\r\n' → '\n'` universal-newline translation of text mode is taken as
already applied to `content`. -/
def pyLines (cs : List Char) : List (List Char) :=
  let parts := splitChar '\n' cs
  if parts.getLast? = some [] then parts.dropLast else parts

/-- The per-value type inference of `MinDF.from_csv`: try `float(val)`; on
success take `int(val)` when the float is integral, else keep the float; on
a parse failure keep the original text. -/
def inferVal (s : String) : Value :=
  match floatOfString s with
  | some f => if f.is_integer then .VInt f.toInt else .VFloat f
  | none => .VStr s

/-- First-occurrence deduplication of the header names, as the dict
comprehension `{col: [] for col in header}` performs. -/
def firstDedup : List String → List String
  | [] => []
  | c :: t => c :: (firstDedup t).filter (fun x => x ≠ c)

/-- The initial column mapping of `from_csv`: every header name bound to an
empty sequence. -/
def initColumns (header : List String) : List (String × List Value) :=
  (firstDedup header).map (fun c => (c, ([] : List Value)))

/-- `columns[col].append(v)`: extend the sequence of the (unique) entry
named `col`.  The name is always present, having come from the header. -/
def appendAt : List (String × List Value) → String → Value → List (String × List Value)
  | [], _, _ => []
  | (k, vs) :: rest, c, v =>
    if k = c then (k, vs ++ [v]) :: rest else (k, vs) :: appendAt rest c v

/-- The fields of one CSV line: `line.strip().split(',')`. -/
def fieldsOf (line : List Char) : List String :=
  (splitChar ',' (trimChars line)).map (fun f => String.mk f)

/-- Process one data line of `from_csv`: strip it, comma-split it, zip the
fields against the header (truncating at the shorter of the two), and
append each field's inferred value to its column. -/
def processLine (header : List String) (cols : List (String × List Value)) (line : List Char) :
    List (String × List Value) :=
  (header.zip (fieldsOf line)).foldl (fun cs p => appendAt cs p.1 (inferVal p.2)) cols

/-- `MinDF.from_csv` on the content of the file: the first line (stripped,
comma-split) is the header; every further line feeds `processLine`; the
resulting mapping goes through the `MinDF` constructor.  `next(f)` on an
empty file raises `StopIteration`. -/
def from_csv (content : String) : Except PyError MinDF :=
  match pyLines content.data with
  | [] => .error .StopIteration
  | hl :: rest =>
    let header := fieldsOf hl
    mindf (rest.foldl (processLine header) (initColumns header))

/-- The length invariant of a constructed store: every column's sequence
length equals `_length`. -/
def WF (df : MinDF) : Prop := ∀ p ∈ df.data, p.2.length = df._length

instance : DecidablePred WF := fun df => by
  unfold WF; infer_instance

/-! ### General helper lemmas -/

/-- `mapM` over `Except` succeeds pointwise. -/
theorem mapM_ok_of_forall {α β : Type} {f : α → Except PyError β} {g : α → β}
    (l : List α) (h : ∀ x ∈ l, f x = .ok (g x)) : l.mapM f = .ok (l.map g) := by
  induction l with
  | nil => rfl
  | cons a t ih =>
    rw [List.mapM_cons, h a (by simp), ih (fun x hx => h x (by simp [hx]))]
    rfl

/-- A left fold of running maxima equals the max of the seed and the list
maximum. -/
theorem foldl_max_eq (g : Value → Nat) (vs : List Value) (a : Nat) :
    vs.foldl (fun w v => max w (g v)) a = max a ((vs.map g).foldr max 0) := by
  induction vs generalizing a with
  | nil => simp
  | cons v t ih => simp [ih, Nat.max_assoc]

/-- If a predicate finds a witness in a list, `find?` returns something. -/
theorem find?_isSome_of_mem {α : Type} {p : α → Bool} {l : List α} {x : α}
    (hx : x ∈ l) (hpx : p x) : ∃ y, l.find? p = some y := by
  cases h : l.find? p with
  | some y => exact ⟨y, rfl⟩
  | none => exact absurd hpx (by simpa using List.find?_eq_none.mp h x hx)

/-! ### C5 — construction and counts -/

/-- C5: constructing from the empty mapping succeeds with zero rows and
columns, and constructing from any nonempty mapping whose sequences all
have common length `L` succeeds, with `count_rows` returning `L` and
`count_cols` the number of keys. -/
theorem c5_construction_counts :
    (mindf [] = .ok ⟨[], 0⟩ ∧ (MinDF.mk [] 0).count_rows = 0 ∧ (MinDF.mk [] 0).count_cols = 0) ∧
    (∀ (kwargs : List (String × List Value)) (L : Nat), kwargs ≠ [] →
      (∀ p ∈ kwargs, p.2.length = L) →
      mindf kwargs = .ok ⟨kwargs, L⟩ ∧ (MinDF.mk kwargs L).count_rows = L ∧
        (MinDF.mk kwargs L).count_cols = kwargs.length) := by
  refine ⟨⟨rfl, rfl, rfl⟩, ?_⟩
  intro kwargs L hne hall
  match kwargs with
  | [] => exact absurd rfl hne
  | (k0, v0) :: rest =>
    have h0 : v0.length = L := hall (k0, v0) (by simp)
    have hnone : ((k0, v0) :: rest).find? (fun p => p.2.length ≠ v0.length) = none := by
      refine List.find?_eq_none.mpr (fun p hp => ?_)
      simp [hall p hp, h0]
    refine ⟨?_, rfl, rfl⟩
    simp only [mindf, hnone]
    rw [h0]

/-- C5 witness at a concrete two-column store. -/
theorem c5_witness :
    mindf [("name", [Value.VStr "Alice", Value.VStr "Bob"]), ("age", [Value.VInt 25, Value.VInt 30])] =
      .ok ⟨[("name", [Value.VStr "Alice", Value.VStr "Bob"]), ("age", [Value.VInt 25, Value.VInt 30])], 2⟩ ∧
    (MinDF.mk [("name", [Value.VStr "Alice", Value.VStr "Bob"]), ("age", [Value.VInt 25, Value.VInt 30])] 2).count_rows = 2 ∧
    (MinDF.mk [("name", [Value.VStr "Alice", Value.VStr "Bob"]), ("age", [Value.VInt 25, Value.VInt 30])] 2).count_cols = 2 :=
  c5_construction_counts.2
    [("name", [Value.VStr "Alice", Value.VStr "Bob"]), ("age", [Value.VInt 25, Value.VInt 30])] 2
    (by decide) (by decide)

/-! ### C6 — length-mismatch ValidationError -/

/-- Shared helper: the constructor propagates the first length mismatch
found in insertion order into its `ValueError`. -/
theorem mindf_mismatch_error (k0 : String) (v0 : List Value)
    (rest : List (String × List Value)) (k1 : String) (v1 : List Value)
    (hfind : ((k0, v0) :: rest).find? (fun p => p.2.length ≠ v0.length) = some (k1, v1)) :
    mindf ((k0, v0) :: rest) =
      .error (.ValueError (lengthMismatchMsg k0 v0.length k1 v1.length)) := by
  simp only [mindf, hfind]

/-- C6: whenever some column's length differs from the first column's, the
constructor fails with a `ValueError` whose message names the reference
column (the first by insertion order) with its length and the offending
column with its length (the first such, in insertion order). -/
theorem c6_mismatch_validation :
    ∀ (k0 : String) (v0 : List Value) (rest : List (String × List Value)),
      (∃ p ∈ (k0, v0) :: rest, p.2.length ≠ v0.length) →
      ∃ k1 v1,
        ((k0, v0) :: rest).find? (fun p => p.2.length ≠ v0.length) = some (k1, v1) ∧
        mindf ((k0, v0) :: rest) =
          .error (.ValueError (lengthMismatchMsg k0 v0.length k1 v1.length)) := by
  intro k0 v0 rest hex
  obtain ⟨p, hp, hlen⟩ := hex
  obtain ⟨⟨k1, v1⟩, hfind⟩ := find?_isSome_of_mem (p := fun p => p.2.length ≠ v0.length) hp (by simpa using hlen)
  exact ⟨k1, v1, hfind, mindf_mismatch_error k0 v0 rest k1 v1 hfind⟩

/-- C6 witness at a concrete mismatched mapping, exhibiting the full
error message. -/
theorem c6_witness :
    (∃ p ∈ [("a", [Value.VInt 1, Value.VInt 2]), ("b", [Value.VStr "x"])], p.2.length ≠ [Value.VInt 1, Value.VInt 2].length) ∧
    mindf [("a", [Value.VInt 1, Value.VInt 2]), ("b", [Value.VStr "x"])] =
      .error (.ValueError (lengthMismatchMsg "a" 2 "b" 1)) := by
  obtain ⟨k1, v1, hfind, herr⟩ :=
    c6_mismatch_validation "a" [Value.VInt 1, Value.VInt 2] [("b", [Value.VStr "x"])]
      ⟨("b", [Value.VStr "x"]), by decide, by decide⟩
  rw [show ([("a", [Value.VInt 1, Value.VInt 2]), ("b", [Value.VStr "x"])].find?
      (fun p => p.2.length ≠ [Value.VInt 1, Value.VInt 2].length)) = some ("b", [Value.VStr "x"])
    from by decide] at hfind
  injection hfind with h
  injection h with h1 h2
  subst h1; subst h2
  exact ⟨⟨("b", [Value.VStr "x"]), by decide, by decide⟩, herr⟩

/-! ### C10 — len() always raises -/

/-- Does `pat` occur as a contiguous subsequence of the list? -/
def containsSeq (pat : List Char) : List Char → Bool
  | [] => pat.isEmpty
  | c :: cs => pat.isPrefixOf (c :: cs) || containsSeq pat cs

/-- C10: `len()` on any store (empty or not) raises a `TypeError` whose
message points at `count_rows()` and `count_cols()`, and never returns a
number. -/
theorem c10_len_raises :
    ∀ df : MinDF,
      mindfLen df = .error (.TypeError lenMsg) ∧
      containsSeq "df.count_rows()".data lenMsg.data = true ∧
      containsSeq "df.count_cols()".data lenMsg.data = true ∧
      ∀ n : Nat, mindfLen df ≠ .ok n := by
  intro df
  exact ⟨rfl, by decide, by decide, fun n h => by simp [mindfLen] at h⟩

/-! ### C9 — display column widths -/

/-- C9: each display column width is the maximum of the column name's text
length and the text lengths of all the column's values. -/
theorem c9_column_widths :
    ∀ df : MinDF,
      df.getColumnWidths = df.data.map (fun p =>
        (p.1, max p.1.length ((p.2.map (fun v => (strOfValue v).length)).foldr max 0))) := by
  intro df
  unfold MinDF.getColumnWidths
  exact List.map_congr_left (fun p _ => by
    rw [foldl_max_eq (fun v => (strOfValue v).length) p.2 p.1.length])

/-! ### C7 — CSV export structure -/

/-- C7 (confirmed as stated): exporting a zero-column store performs no
file write and cannot error; otherwise the file content is exactly the
concatenated writes: one header line of the comma-joined column names in
column order, then one comma-joined line per row index `0..count_rows-1`,
and every written line ends with a newline character. -/
theorem c7_to_csv_layout :
    ∀ df : MinDF,
      (df.data = [] → df.to_csv = none) ∧
      (df.data ≠ [] → df.to_csv = some ⟨(df.csvWrites.map String.data).flatten⟩) ∧
      df.csvWrites.length = 1 + df.count_rows ∧
      df.csvWrites.head? = some (joinComma df.keysList ++ "\n") ∧
      (∀ i, i < df.count_rows →
        df.csvWrites[i+1]? =
          some (joinComma (df.data.map (fun p => strOfValue (p.2.getD i (.VStr "")))) ++ "\n")) ∧
      (∀ w ∈ df.csvWrites, ∃ t, w = t ++ "\n") := by
  intro df
  refine ⟨?_, ?_, ?_, rfl, ?_, ?_⟩
  · intro h; simp [MinDF.to_csv, h]
  · intro h; simp [MinDF.to_csv, h]
  · simp [MinDF.csvWrites, Nat.add_comm]
  · intro i hi
    simp [MinDF.csvWrites, List.getElem?_map, List.getElem?_range hi]
  · intro w hw
    simp only [MinDF.csvWrites, List.mem_cons, List.mem_map, List.mem_range] at hw
    rcases hw with h | ⟨i, _, hi⟩
    · exact ⟨joinComma df.keysList, h⟩
    · exact ⟨_, hi.symm⟩

/-- C7 witness at a concrete store (the `i+1`-th write conjunct is applied
at row 0 after discharging its bound). -/
theorem c7_witness :
    ((MinDF.mk [("a", [Value.VInt 1]), ("b", [Value.VStr "x"])] 1).data ≠ [] ∧
      (MinDF.mk [("a", [Value.VInt 1]), ("b", [Value.VStr "x"])] 1).to_csv = some "a,b\n1,x\n") ∧
    (MinDF.mk [("a", [Value.VInt 1]), ("b", [Value.VStr "x"])] 1).csvWrites = ["a,b\n", "1,x\n"] := by
  refine ⟨⟨by decide, ?_⟩, by decide⟩
  exact ((c7_to_csv_layout (MinDF.mk [("a", [Value.VInt 1]), ("b", [Value.VStr "x"])] 1)).2.1
    (by decide)).trans (by decide)

/-! ### C1 — row index bounds (corrected) -/

/-- C1 counterexample: the claim states `row(index)` succeeds whenever
`-N ≤ index < N`; on a one-row store `index = -1` satisfies that bound, yet
the source's `abs(index) >= self._length` check rejects it (and in
particular `row(-1)` does not agree with `row(N-1) = row(0)`). -/
theorem c1_counterexample :
    (-(1 : Int) ≤ -1 ∧ (-1 : Int) < 1) ∧
    (MinDF.mk [("a", [Value.VInt 0])] 1).row (-1) =
      .error (.ValueError "index -1 is out of range; number of rows is 1") ∧
    (MinDF.mk [("a", [Value.VInt 0])] 1).row 0 = .ok [("a", Value.VInt 0)] := by
  exact ⟨by decide, by decide, by decide⟩

/-- C1 (amended): on a store satisfying the length invariant, `row(index)`
succeeds exactly when `abs(index) < row_count` (so the negative bound is
`-N < index`, not `-N ≤ index`), returning the mapping from each column
name, in column order, to that column's value at `index` (negative indices
Python-style from the end); otherwise it raises the out-of-range
`ValueError`.  Consequently `row(-1)` agrees with `row(N-1)` only for
`N ≥ 2`, while `row(N)`, `row(-(N+1))` and also `row(-N)` all raise. -/
theorem c1_row_bounds_amended :
    ∀ df : MinDF, WF df → ∀ index : Int,
      (index.natAbs < df._length →
        df.row index = .ok (df.data.map (fun p =>
          (p.1, p.2.getD (if index < 0 then ((p.2.length : Int) + index).toNat else index.toNat)
            (.VStr ""))))) ∧
      (df._length ≤ index.natAbs →
        df.row index = .error (.ValueError (rowRangeMsg index df._length))) ∧
      (2 ≤ df._length → df.row (-1) = df.row ((df._length : Int) - 1)) := by
  intro df hwf index
  have hsucc : ∀ j : Int, j.natAbs < df._length →
      df.row j = .ok (df.data.map (fun p =>
        (p.1, p.2.getD (if j < 0 then ((p.2.length : Int) + j).toNat else j.toNat) (.VStr "")))) := by
    intro j hj
    unfold MinDF.row
    rw [if_neg (by omega)]
    refine mapM_ok_of_forall _ (fun p hp => ?_)
    have hlen : p.2.length = df._length := hwf p hp
    simp only [pyListGet]
    split_ifs with h1 h2 h3 h4 h5 <;> first | rfl | (exfalso; omega)
  refine ⟨hsucc index, ?_, ?_⟩
  · intro hge
    unfold MinDF.row
    rw [if_pos hge]
  · intro h2
    rw [hsucc (-1) (by omega), hsucc ((df._length : Int) - 1) (by omega)]
    refine congrArg _ (List.map_congr_left (fun p hp => ?_))
    have hlen : p.2.length = df._length := hwf p hp
    have : (((p.2.length : Int) + -1)).toNat = ((df._length : Int) - 1).toNat := by omega
    rw [if_pos (by omega), if_neg (by omega), this]

/-- C1 witness: on a two-row store, `row(-1)` succeeds and equals
`row(1)`, and `row(2)` raises. -/
theorem c1_witness :
    WF (MinDF.mk [("a", [Value.VInt 10, Value.VInt 20])] 2) ∧
    (MinDF.mk [("a", [Value.VInt 10, Value.VInt 20])] 2).row (-1) = .ok [("a", Value.VInt 20)] ∧
    (MinDF.mk [("a", [Value.VInt 10, Value.VInt 20])] 2).row 2 =
      .error (.ValueError "index 2 is out of range; number of rows is 2") := by
  refine ⟨by decide, ?_, ?_⟩
  · exact ((c1_row_bounds_amended _ (by decide) (-1)).1 (by decide)).trans (by decide)
  · exact ((c1_row_bounds_amended _ (by decide) 2).2.1 (by decide)).trans (by decide)

/-! ### C3 — generic indexed access (corrected) -/

/-- C3 counterexample: on an absent column name the generic accessor and
`col` both fail, but not identically: `self.data[key]` raises `KeyError`
while `col` raises its `ValueError` — so a string key does not fail
exactly as `column(key)` fails. -/
theorem c3_counterexample :
    (MinDF.mk [("a", [Value.VInt 0])] 1).getitem (.pstr "z") = .error (.KeyError "z") ∧
    (MinDF.mk [("a", [Value.VInt 0])] 1).col "z" =
      .error (.ValueError (apos ++ "z" ++ apos ++ " is not a column name")) ∧
    PyError.KeyError "z" ≠ PyError.ValueError (apos ++ "z" ++ apos ++ " is not a column name") := by
  exact ⟨by decide, by decide, by decide⟩

/-- C3 (amended): a string key returns exactly what `col` returns whenever
the name is present, and both fail on an absent name — the generic
accessor with `KeyError(key)`, `col` with its `ValueError` message; an
integer key behaves identically to `row` (same value, same error); a float
key raises the `TypeError` naming the invalid key type. -/
theorem c3_getitem_dispatch :
    ∀ df : MinDF,
      (∀ s vs, df.data.lookup s = some vs →
        df.getitem (.pstr s) = .ok (.gcol vs) ∧ df.col s = .ok vs) ∧
      (∀ s, df.data.lookup s = none →
        df.getitem (.pstr s) = .error (.KeyError s) ∧
        df.col s = .error (.ValueError (apos ++ s ++ apos ++ " is not a column name"))) ∧
      (∀ i : Int, df.getitem (.pint i) = (df.row i).map GetResult.grow) ∧
      (∀ f : PyFloat, df.getitem (.pfloat f) = .error (.TypeError invalidKeyMsgFloat)) := by
  intro df
  refine ⟨fun s vs h => ⟨?_, ?_⟩, fun s h => ⟨?_, ?_⟩, fun _ => rfl, fun _ => rfl⟩
  · simp [MinDF.getitem, h]
  · simp [MinDF.col, h]
  · simp [MinDF.getitem, h]
  · simp [MinDF.col, h]

/-- C3 witness: the present-name case of the amended dispatch theorem at a
concrete store. -/
theorem c3_witness :
    (MinDF.mk [("a", [Value.VInt 7])] 1).data.lookup "a" = some [Value.VInt 7] ∧
    (MinDF.mk [("a", [Value.VInt 7])] 1).getitem (.pstr "a") = .ok (.gcol [Value.VInt 7]) ∧
    (MinDF.mk [("a", [Value.VInt 7])] 1).col "a" = .ok [Value.VInt 7] := by
  refine ⟨by decide, ?_⟩
  exact (c3_getitem_dispatch (MinDF.mk [("a", [Value.VInt 7])] 1)).1 "a" [Value.VInt 7] (by decide)

/-! ### Digit and logarithm groundwork for the CSV number pipeline -/

/-- Decimal digit characters have the expected code points. -/
theorem digitV_decChar : ∀ d < 10, digitV (decChar d) = d := by decide

/-- Decimal digit characters satisfy the digit test. -/
theorem isDigitC_decChar : ∀ d < 10, isDigitC (decChar d) = true := by decide

/-- Folding the digit-accumulation step over a snoc. -/
theorem digitsVal_append_singleton (l : List Char) (c : Char) :
    digitsVal (l ++ [c]) = 10 * digitsVal l + digitV c := by
  simp [digitsVal, List.foldl_append]

/-- The digit expansion is made of digit characters. -/
theorem natDigitsAux_all_digits : ∀ f n, ∀ c ∈ natDigitsAux f n, isDigitC c = true := by
  intro f
  induction f with
  | zero => intro n c hc; simp [natDigitsAux] at hc
  | succ f ih =>
    intro n c hc
    by_cases h0 : n = 0
    · simp [natDigitsAux, h0] at hc
    · simp only [natDigitsAux, if_neg h0, List.mem_append, List.mem_singleton] at hc
      rcases hc with h | h
      · exact ih (n / 10) c h
      · exact h ▸ isDigitC_decChar (n % 10) (Nat.mod_lt n (by omega))

/-- The digit expansion of a positive number is nonempty. -/
theorem natDigitsAux_ne_nil : ∀ f n, 1 ≤ n → n ≤ f → natDigitsAux f n ≠ [] := by
  intro f
  cases f with
  | zero => intro n h1 h2; omega
  | succ f =>
    intro n h1 _
    simp [natDigitsAux, show ¬n = 0 from by omega]

/-- The digit expansion evaluates back to the number it came from. -/
theorem digitsVal_natDigitsAux : ∀ f n, n ≤ f → digitsVal (natDigitsAux f n) = n := by
  intro f
  induction f with
  | zero => intro n h; interval_cases n; rfl
  | succ f ih =>
    intro n h
    by_cases h0 : n = 0
    · simp [natDigitsAux, h0, digitsVal]
    · rw [natDigitsAux, if_neg h0, digitsVal_append_singleton,
        ih (n / 10) (by omega), digitV_decChar (n % 10) (Nat.mod_lt n (by omega))]
      omega

/-- Bounds characterising `log2Fuel` under sufficient fuel. -/
theorem log2Fuel_spec : ∀ f n, n ≤ f → 1 ≤ n →
    2 ^ log2Fuel f n ≤ n ∧ n < 2 ^ (log2Fuel f n + 1) := by
  intro f
  induction f with
  | zero => intro n h1 h2; omega
  | succ f ih =>
    intro n hle h1
    by_cases h2 : n ≤ 1
    · have : n = 1 := by omega
      subst this
      simp [log2Fuel]
    · have hrec := ih (n / 2) (by omega) (by omega)
      rw [log2Fuel, if_neg h2]
      have hlow := hrec.1
      have hhigh := hrec.2
      have hp1 : (2:Nat) ^ (log2Fuel f (n / 2) + 1) = 2 * 2 ^ log2Fuel f (n / 2) := by ring
      have hp2 : (2:Nat) ^ (log2Fuel f (n / 2) + 1 + 1) = 2 * 2 ^ (log2Fuel f (n / 2) + 1) := by
        ring
      omega

/-- Bounds characterising `natLog2` on positive input. -/
theorem natLog2_spec (n : Nat) (h : 1 ≤ n) :
    2 ^ natLog2 n ≤ n ∧ n < 2 ^ (natLog2 n + 1) := log2Fuel_spec n n le_rfl h

/-- `natLog2` is small whenever the number is below a power of two. -/
theorem natLog2_lt (n K : Nat) (h1 : 1 ≤ n) (hK : n < 2 ^ K) : natLog2 n < K := by
  have hs := (natLog2_spec n h1).1
  by_contra hcon
  exact absurd (lt_of_le_of_lt (le_trans (Nat.pow_le_pow_right (by omega) (by omega)) hs) hK)
    (lt_irrefl _)


/-- Characterisation of the mantissa normalisation loop: it factors out
the full power of two, leaving an odd mantissa and a bumped exponent. -/
theorem normAux_spec : ∀ f (neg : Bool) (m : Nat) (e : Int), m ≤ f → m ≠ 0 →
    ∃ k : Nat, 2 ^ k ∣ m ∧ normAux f neg m e = ⟨neg, m / 2 ^ k, e + (k : Int)⟩ ∧
      (m / 2 ^ k) % 2 = 1 := by
  intro f
  induction f with
  | zero => intro neg m e h1 h2; omega
  | succ f ih =>
    intro neg m e hle hne
    by_cases hev : m % 2 = 0 ∧ m ≠ 0
    · obtain ⟨k, hdvd, heq, hodd⟩ := ih neg (m / 2) (e + 1) (by omega) (by omega)
      have hdiv : m / 2 / 2 ^ k = m / 2 ^ (k + 1) := by
        rw [Nat.div_div_eq_div_mul]
        congr 1
        ring
      refine ⟨k + 1, ?_, ?_, ?_⟩
      · obtain ⟨c, hc⟩ := hdvd
        refine ⟨c, ?_⟩
        calc m = 2 * (m / 2) := by omega
        _ = 2 * (2 ^ k * c) := by rw [hc]
        _ = 2 ^ (k + 1) * c := by ring
      · rw [normAux, if_pos hev, heq, hdiv]
        have hexp : e + 1 + (k : Int) = e + ((k + 1 : Nat) : Int) := by push_cast; ring
        rw [hexp]
      · rw [← hdiv]
        exact hodd
    · refine ⟨0, by simp, ?_, ?_⟩
      · rw [normAux, if_neg hev]
        simp
      · simp only [pow_zero, Nat.div_one]
        omega

/-- On integer input (`d = 1`) the corrected floor-log is `natLog2`. -/
theorem posFloorLog2_int (n : Nat) (h1 : 1 ≤ n) : posFloorLog2 n 1 = (natLog2 n : Int) := by
  have hone : natLog2 1 = 0 := rfl
  have hle : le2pow ((natLog2 n : Int) - (natLog2 1 : Int)) n 1 = true := by
    rw [hone]
    unfold le2pow
    rw [if_pos (by omega)]
    simpa using (natLog2_spec n h1).1
  simp only [posFloorLog2, hle]
  simp [hone]

/-- On integer input at most `2 ^ 53`, the ulp grid sits at `natLog2 n - 52`. -/
theorem posUlp_int (n : Nat) (h1 : 1 ≤ n) : posUlp n 1 = (natLog2 n : Int) - 52 := by
  unfold posUlp
  rw [posFloorLog2_int n h1]
  omega

/-- Exact half-even division when the denominator divides evenly. -/
theorem halfEvenDiv_exact (N Dd : Nat) (hD : 1 ≤ Dd) (hdvd : Dd ∣ N) :
    halfEvenDiv N Dd = N / Dd := by
  obtain ⟨c, rfl⟩ := hdvd
  simp only [halfEvenDiv, Nat.mul_mod_right]
  rw [if_pos (by omega : 2 * 0 < Dd)]

/-- Exact rounding of an integer `1 ≤ n ≤ 2 ^ 53`: the binary64 grid holds
it, so `roundPosCore` returns a mantissa/ulp pair whose value is exactly
`n` (with the scaling recorded in the shape needed by `mkDyadic_int`). -/
theorem roundPosCore_int (n : Nat) (h1 : 1 ≤ n) (h2 : n ≤ 2 ^ 53) :
    ∃ m ulp, roundPosCore n 1 = some (m, ulp) ∧ m ≠ 0 ∧
      ((ulp ≤ 0 ∧ m = n * 2 ^ (-ulp).toNat) ∨ (ulp = 1 ∧ n = 2 ^ 53 ∧ m = 2 ^ 52)) := by
  obtain ⟨hlb, hub⟩ := natLog2_spec n h1
  have hL53 : natLog2 n ≤ 53 := by
    have := natLog2_lt n 54 h1 (by calc n ≤ 2 ^ 53 := h2
                                      _ < 2 ^ 54 := by norm_num)
    omega
  by_cases hc : natLog2 n = 53
  · have hn : n = 2 ^ 53 := by
      rw [hc] at hlb
      omega
    subst hn
    exact ⟨2 ^ 52, 1, by decide, by positivity, Or.inr ⟨rfl, rfl, rfl⟩⟩
  · have hL52 : natLog2 n ≤ 52 := by omega
    have hulp : posUlp n 1 = (natLog2 n : Int) - 52 := posUlp_int n h1
    have hscaledN : scaledNum n 1 = n * 2 ^ (52 - natLog2 n) := by
      unfold scaledNum
      rw [hulp]
      split_ifs with h
      · have h52 : natLog2 n = 52 := by omega
        rw [h52]
        norm_num
      · congr 1
        congr 1
        omega
    have hscaledD : scaledDen n 1 = 1 := by
      unfold scaledDen
      rw [hulp]
      split_ifs with h
      · have h52 : natLog2 n = 52 := by omega
        rw [h52]
        norm_num
      · rfl
    have hmval : halfEvenDiv (scaledNum n 1) (scaledDen n 1) = n * 2 ^ (52 - natLog2 n) := by
      rw [hscaledN, hscaledD, halfEvenDiv_exact _ 1 le_rfl (one_dvd _), Nat.div_one]
    have hmbound : n * 2 ^ (52 - natLog2 n) < 2 ^ 53 := by
      calc n * 2 ^ (52 - natLog2 n) < 2 ^ (natLog2 n + 1) * 2 ^ (52 - natLog2 n) := by
            exact mul_lt_mul_of_pos_right hub (by positivity)
      _ = 2 ^ (natLog2 n + 1 + (52 - natLog2 n)) := by rw [← pow_add]
      _ = 2 ^ 53 := by congr 1; omega
    refine ⟨n * 2 ^ (52 - natLog2 n), (natLog2 n : Int) - 52, ?_, by positivity, Or.inl ⟨by omega, ?_⟩⟩
    · simp only [roundPosCore, hmval, hulp]
      rw [if_neg (by omega)]
      rw [if_neg ?hov]
      case hov =>
        rintro ⟨hm1, hlog⟩
        have := natLog2_lt _ 53 hm1 hmbound
        omega
    · have hexp : (-(((natLog2 n : Int)) - 52)).toNat = 52 - natLog2 n := by omega
      rw [hexp]

/-- Exact rounding of a small signed integer through `roundDec`: the
resulting float is finite, integral, and converts back to the same
integer. -/
theorem roundDec_int (neg : Bool) (n : Nat) (h1 : 1 ≤ n) (h2 : n ≤ 2 ^ 53) :
    ∃ dy : Dyadic, roundDec neg n 0 = .finite dy ∧ dy.is_integer = true ∧
      dy.toInt = (if neg then -(n : Int) else (n : Int)) := by
  obtain ⟨m, ulp, hcore, hm0, hshape⟩ := roundPosCore_int n h1 h2
  have hn0 : ¬ n = 0 := by omega
  have hmain : roundDec neg n 0 = .finite (mkDyadic neg m ulp) := by
    simp only [roundDec, if_neg hn0]
    norm_num
    rw [hcore]
  obtain ⟨k, hdvd, hnorm, hodd⟩ := normAux_spec m neg m ulp le_rfl hm0
  have hmk : mkDyadic neg m ulp = ⟨neg, m / 2 ^ k, ulp + (k : Int)⟩ := by
    unfold mkDyadic
    rw [if_neg hm0, hnorm]
  rcases hshape with ⟨hulp_le, hmval⟩ | ⟨hulp1, hn53, hm52⟩
  · -- m = n * 2 ^ a with ulp = -a ≤ 0; the odd part of m fixes k ≥ a
    set a : Nat := (-ulp).toNat with ha
    have hka : a ≤ k := by
      by_contra hcon
      push_neg at hcon
      have hdvd2 : 2 ^ k ∣ 2 ^ a := pow_dvd_pow 2 (by omega)
      have heq : m / 2 ^ k = n * 2 ^ (a - k) := by
        rw [hmval]
        have h3 : n * 2 ^ a = n * 2 ^ (a - k) * 2 ^ k := by
          rw [mul_assoc, ← pow_add]
          have : a - k + k = a := by omega
          rw [this]
        rw [h3, Nat.mul_div_cancel _ (by positivity)]
      have : (m / 2 ^ k) % 2 = 0 := by
        rw [heq]
        have : 2 ∣ n * 2 ^ (a - k) := by
          refine Dvd.dvd.mul_left ?_ n
          exact dvd_pow_self 2 (by omega)
        omega
      omega
    have hexp0 : (0 : Int) ≤ ulp + (k : Int) := by omega
    have htoNat : (ulp + (k : Int)).toNat = k - a := by omega
    have hvalue : m / 2 ^ k * 2 ^ (k - a) = n := by
      have hdvd_n : 2 ^ (k - a) ∣ n := by
        have h2k : 2 ^ k ∣ n * 2 ^ a := hmval ▸ hdvd
        have : 2 ^ (k - a) * 2 ^ a ∣ n * 2 ^ a := by
          rw [← pow_add]
          have : k - a + a = k := by omega
          rw [this]
          exact h2k
        exact (Nat.mul_dvd_mul_iff_right (by positivity : 0 < 2 ^ a)).mp this
      have hq : m / 2 ^ k = n / 2 ^ (k - a) := by
        rw [hmval]
        calc n * 2 ^ a / 2 ^ k = n * 2 ^ a / (2 ^ a * 2 ^ (k - a)) := by
              rw [← pow_add]
              have : a + (k - a) = k := by omega
              rw [this]
        _ = n * 2 ^ a / 2 ^ a / 2 ^ (k - a) := by rw [← Nat.div_div_eq_div_mul]
        _ = n / 2 ^ (k - a) := by rw [Nat.mul_div_cancel _ (by positivity)]
      rw [hq]
      exact Nat.div_mul_cancel hdvd_n
    refine ⟨⟨neg, m / 2 ^ k, ulp + (k : Int)⟩, by rw [hmain, hmk], ?_, ?_⟩
    · simp [Dyadic.is_integer, hexp0]
    · simp only [Dyadic.toInt, htoNat, hvalue]
      cases neg <;> simp
  · -- n = 2 ^ 53: the mantissa 2 ^ 52 normalises to 1 with exponent 53
    have hk52 : k = 52 := by
      have hkle : k ≤ 52 := by
        by_contra hcon
        have : (2 : Nat) ^ 52 < 2 ^ k := Nat.pow_lt_pow_right (by omega) (by omega)
        have := Nat.le_of_dvd (by positivity) (hm52 ▸ hdvd)
        omega
      have hdivpow : m / 2 ^ k = 2 ^ (52 - k) := by
        rw [hm52]
        rw [Nat.pow_div (by omega) (by omega)]
      by_contra hne
      have : 2 ∣ 2 ^ (52 - k) := dvd_pow_self 2 (by omega)
      rw [hdivpow] at hodd
      omega
    subst hk52
    subst hulp1
    refine ⟨⟨neg, m / 2 ^ 52, 1 + (52 : Int)⟩, by rw [hmain, hmk]; norm_num, by simp [Dyadic.is_integer], ?_⟩
    · rw [hm52, Nat.pow_div (by omega) (by omega)]
      simp only [Dyadic.toInt, hn53]
      norm_num
      cases neg <;> simp

/-- Digit characters are not Python whitespace. -/
theorem isPyWs_of_digit {c : Char} (h : isDigitC c = true) : isPyWs c = false := by
  simp only [isDigitC, Bool.decide_and, Bool.and_eq_true, decide_eq_true_eq] at h
  simp only [isPyWs, Bool.decide_or]
  have h32 : (' ' : Char).toNat = 32 := by decide
  have h9 : ('\t' : Char).toNat = 9 := by decide
  have h10 : ('\n' : Char).toNat = 10 := by decide
  have h13 : ('\x0d' : Char).toNat = 13 := by decide
  have h11 : (Char.ofNat 11).toNat = 11 := by decide
  have h12 : (Char.ofNat 12).toNat = 12 := by decide
  simp only [Bool.or_eq_false_iff, decide_eq_false_iff_not]
  refine ⟨?_, ?_, ?_, ?_, ?_, ?_⟩ <;>
    · intro he
      rw [he] at h
      omega

/-- `dropWhile` is the identity when no element satisfies the predicate. -/
theorem dropWhile_eq_self_of {α : Type} (p : α → Bool) (l : List α)
    (h : ∀ c ∈ l, p c = false) : l.dropWhile p = l := by
  cases l with
  | nil => rfl
  | cons a t => rw [List.dropWhile_cons, h a (by simp)]; simp

/-- `strip` is the identity on strings with no whitespace at all. -/
theorem trimChars_eq_self {cs : List Char} (h : ∀ c ∈ cs, isPyWs c = false) :
    trimChars cs = cs := by
  unfold trimChars
  rw [dropWhile_eq_self_of _ _ h,
    dropWhile_eq_self_of _ _ (fun c hc => h c (List.mem_reverse.mp hc)),
    List.reverse_reverse]

/-- Lower-casing keeps digit characters unchanged. -/
theorem lowC_digit {c : Char} (h : isDigitC c = true) : lowC c = c := by
  simp only [isDigitC, Bool.decide_and, Bool.and_eq_true, decide_eq_true_eq] at h
  unfold lowC
  rw [if_neg (by omega)]

/-- A digit character is not any specific non-digit character. -/
theorem digit_ne {c x : Char} (h : isDigitC c = true) (hx : isDigitC x = false) : c ≠ x := by
  intro he
  rw [he, hx] at h
  exact Bool.false_ne_true h

/-- `splitFirst` finds nothing when no character matches. -/
theorem splitFirst_none (p : Char → Bool) (cs : List Char)
    (h : ∀ c ∈ cs, p c = false) : splitFirst p cs = (cs, none) := by
  induction cs with
  | nil => rfl
  | cons c t ih =>
    rw [splitFirst, h c (by simp), ih (fun x hx => h x (by simp [hx]))]
    simp

/-- No sign is consumed from a digit-headed character list. -/
theorem takeSignC_digit {c : Char} (t : List Char) (h : isDigitC c = true) :
    takeSignC (c :: t) = (false, c :: t) := by
  rw [takeSignC, if_neg (digit_ne h (by decide)), if_neg (digit_ne h (by decide))]

/-- Lower-casing is the identity on all-digit lists. -/
theorem map_lowC_digits {cs : List Char} (h : ∀ c ∈ cs, isDigitC c = true) :
    cs.map lowC = cs := by
  rw [List.map_congr_left (fun c hc => lowC_digit (h c hc))]
  simp

/-- An all-digit list is not one of the special float words. -/
theorem digits_ne_word {cs : List Char} (hne : cs ≠ []) (h : ∀ c ∈ cs, isDigitC c = true) :
    cs ≠ "inf".data ∧ cs ≠ "infinity".data ∧ cs ≠ "nan".data := by
  cases cs with
  | nil => exact absurd rfl hne
  | cons c t =>
    have hc := h c (by simp)
    refine ⟨?_, ?_, ?_⟩ <;>
      · intro he
        injection he with h1 h2
        rw [h1] at hc
        exact absurd hc (by decide)

/-- The full parse of an (optionally negated) all-digit string: the float
conversion succeeds and correctly rounds the decimal integer value. -/
theorem floatOfChars_digits {cs : List Char} (hne : cs ≠ []) (hd : ∀ c ∈ cs, isDigitC c = true) :
    floatOfChars cs = some (roundDec false (digitsVal cs) 0) ∧
    floatOfChars ('-' :: cs) = some (roundDec true (digitsVal cs) 0) := by
  have hws : ∀ c ∈ cs, isPyWs c = false := fun c hc => isPyWs_of_digit (hd c hc)
  have htrim : trimChars cs = cs := trimChars_eq_self hws
  have htrim2 : trimChars ('-' :: cs) = '-' :: cs := by
    refine trimChars_eq_self (fun c hc => ?_)
    rcases List.mem_cons.mp hc with h | h
    · rw [h]; decide
    · exact hws c h
  have hsign : takeSignC cs = (false, cs) := by
    cases cs with
    | nil => exact absurd rfl hne
    | cons c t => exact takeSignC_digit t (hd c (by simp))
  have hsign2 : takeSignC ('-' :: cs) = (true, cs) := by
    rw [takeSignC, if_neg (by decide), if_pos rfl]
  have hmap : cs.map lowC = cs := map_lowC_digits hd
  obtain ⟨hw1, hw2, hw3⟩ := digits_ne_word hne hd
  have hexp : splitFirst isExpChar cs = (cs, none) := by
    refine splitFirst_none _ _ (fun c hc => ?_)
    simp only [isExpChar, lowC_digit (hd c hc)]
    exact decide_eq_false (digit_ne (hd c hc) (by decide))
  have hdot : splitFirst (fun c => c = '.') cs = (cs, none) := by
    refine splitFirst_none _ _ (fun c hc => ?_)
    exact decide_eq_false (digit_ne (hd c hc) (by decide))
  have hall : (cs ++ []).all isDigitC = true := by
    rw [List.append_nil]
    exact List.all_eq_true.mpr hd
  constructor
  · simp only [floatOfChars, htrim, hsign, hmap]
    rw [if_neg (by simp [hw1, hw2]), if_neg (by simp [hw3]), hexp]
    simp only [hdot]
    rw [if_pos ⟨by simp [hne], hall⟩]
    simp [List.append_nil]
  · simp only [floatOfChars, htrim2, hsign2, hmap]
    rw [if_neg (by simp [hw1, hw2]), if_neg (by simp [hw3]), hexp]
    simp only [hdot]
    rw [if_pos ⟨by simp [hne], hall⟩]
    simp [List.append_nil]

/-- The decimal rendering of a nonzero natural: nonempty, all digits,
value-faithful. -/
theorem natStr_data (n : Nat) (h : 1 ≤ n) :
    (natStr n).data = natDigitsAux n n ∧ natDigitsAux n n ≠ [] ∧
      (∀ c ∈ natDigitsAux n n, isDigitC c = true) ∧ digitsVal (natDigitsAux n n) = n := by
  refine ⟨?_, natDigitsAux_ne_nil n n h le_rfl, natDigitsAux_all_digits n n,
    digitsVal_natDigitsAux n n le_rfl⟩
  rw [natStr, if_neg (by omega)]

/-- The type inference of `from_csv` maps the decimal rendering of any
integer of magnitude at most `2 ^ 53` back to that integer. -/
theorem inferVal_intStr (z : Int) (hz : z.natAbs ≤ 2 ^ 53) : inferVal (intStr z) = .VInt z := by
  rcases Int.lt_trichotomy z 0 with hneg | hzero | hpos
  · obtain ⟨hdata, hne, hdig, hval⟩ := natStr_data z.natAbs (by omega)
    have hstr : (intStr z).data = '-' :: natDigitsAux z.natAbs z.natAbs := by
      rw [intStr, if_pos hneg, String.data_append, hdata]
      rfl
    obtain ⟨dy, hround, hint, htoInt⟩ :=
      roundDec_int true z.natAbs (by omega) hz
    have htoInt2 : dy.toInt = -(z.natAbs : Int) := by rw [htoInt]; simp
    rw [inferVal, floatOfString, hstr, (floatOfChars_digits hne hdig).2, hval, hround]
    simp only [PyFloat.is_integer, hint, if_pos rfl, PyFloat.toInt, htoInt2]
    rw [if_pos trivial]
    congr 1
    omega
  · subst hzero
    decide
  · obtain ⟨hdata, hne, hdig, hval⟩ := natStr_data z.natAbs (by omega)
    have hstr : (intStr z).data = natDigitsAux z.natAbs z.natAbs := by
      rw [intStr, if_neg (by omega), String.data_append, hdata]
      simp
    obtain ⟨dy, hround, hint, htoInt⟩ :=
      roundDec_int false z.natAbs (by omega) hz
    have htoInt2 : dy.toInt = (z.natAbs : Int) := by rw [htoInt]; simp
    rw [inferVal, floatOfString, hstr, (floatOfChars_digits hne hdig).1, hval, hround]
    simp only [PyFloat.is_integer, hint, if_pos rfl, PyFloat.toInt, htoInt2]
    rw [if_pos trivial]
    congr 1
    omega

/-! ### C4 — CSV type inference -/

/-- C4 (confirmed): for every text field read during import, the stored
cell is determined by `float(val)`: on success with an integral value the
cell is that value as an integer (`int(val)`), on success with a
fractional value it is the float itself, and on failure the original text
is kept unchanged. -/
theorem c4_type_inference :
    (∀ (s : String) (f : PyFloat), floatOfString s = some f →
      (f.is_integer = true → inferVal s = .VInt f.toInt) ∧
      (f.is_integer = false → inferVal s = .VFloat f)) ∧
    (∀ s : String, floatOfString s = none → inferVal s = .VStr s) := by
  refine ⟨fun s f h => ⟨fun hi => ?_, fun hi => ?_⟩, fun s h => ?_⟩
  · simp [inferVal, h, hi]
  · simp [inferVal, h, hi]
  · simp [inferVal, h]

/-- C4 witness: a concrete integral parse, and a concrete parse failure. -/
theorem c4_witness :
    floatOfString "42" = some (.finite ⟨false, 21, 1⟩) ∧
    inferVal "42" = .VInt (PyFloat.toInt (.finite ⟨false, 21, 1⟩)) ∧
    floatOfString "Alice" = none ∧ inferVal "Alice" = .VStr "Alice" := by
  refine ⟨by decide, ?_, by decide, ?_⟩
  · exact (c4_type_inference.1 "42" _ (by decide)).1 (by decide)
  · exact c4_type_inference.2 "Alice" (by decide)

/-! ### C2 — CSV round trip (corrected) -/

/-- C2 counterexample: a store holding the single integer
`10^17 + 1 = 100000000000000001` (beyond the 53-bit float mantissa)
exports to a CSV whose import yields the different integer `10^17`: the
float-based inference silently corrupts large integers, so the round trip
does not reproduce identical values. -/
theorem c2_counterexample :
    (MinDF.mk [("a", [Value.VInt 100000000000000001])] 1).to_csv =
      some "a\n100000000000000001\n" ∧
    from_csv "a\n100000000000000001\n" = .ok ⟨[("a", [Value.VInt 100000000000000000])], 1⟩ ∧
    (100000000000000000 : Int) ≠ 100000000000000001 := by
  exact ⟨by decide, by decide, by decide⟩

/-- C10 witness: the theorem applied at the empty store. -/
theorem c10_witness :
    mindfLen ⟨[], 0⟩ = .error (.TypeError lenMsg) ∧ mindfLen ⟨[], 0⟩ ≠ .ok 3 :=
  ⟨(c10_len_raises ⟨[], 0⟩).1, (c10_len_raises ⟨[], 0⟩).2.2.2 3⟩

/-! ### Split/join and line lemmas for the CSV round trip -/

/-- Splitting after a separator-free chunk peels that chunk off. -/
theorem splitChar_append_cons (sep : Char) (r rest : List Char) (h : sep ∉ r) :
    splitChar sep (r ++ sep :: rest) = r :: splitChar sep rest := by
  induction r with
  | nil => simp [splitChar]
  | cons c t ih =>
    have hc : ¬ c = sep := fun he => h (by simp [he])
    rw [List.cons_append, splitChar, ih (fun hm => h (by simp [hm]))]
    simp [hc]

/-- Splitting a separator-free list yields that single field. -/
theorem splitChar_no_sep (sep : Char) (cs : List Char) (h : sep ∉ cs) :
    splitChar sep cs = [cs] := by
  induction cs with
  | nil => rfl
  | cons c t ih =>
    have hc : ¬ c = sep := fun he => h (by simp [he])
    rw [splitChar, ih (fun hm => h (by simp [hm]))]
    simp [hc]

/-- Splitting is a left inverse of joining for separator-free parts. -/
theorem splitChar_joinChar (sep : Char) (parts : List (List Char)) (hne : parts ≠ [])
    (h : ∀ p ∈ parts, sep ∉ p) : splitChar sep (joinChar sep parts) = parts := by
  induction parts with
  | nil => exact absurd rfl hne
  | cons x ps ih =>
    cases ps with
    | nil => exact splitChar_no_sep sep x (h x (by simp))
    | cons y t =>
      rw [show joinChar sep (x :: y :: t) = x ++ sep :: joinChar sep (y :: t) from rfl,
        splitChar_append_cons sep x _ (h x (by simp)),
        ih (by simp) (fun p hp => h p (by simp [hp]))]

/-- Python line iteration undoes newline-terminated record concatenation. -/
theorem pyLines_of_records (recs : List (List Char)) (h : ∀ r ∈ recs, '\n' ∉ r) :
    pyLines ((recs.map (fun r => r ++ ['\n'])).flatten) = recs := by
  have hsplit : splitChar '\n' ((recs.map (fun r => r ++ ['\n'])).flatten) = recs ++ [[]] := by
    induction recs with
    | nil => rfl
    | cons r rs ih =>
      rw [List.map_cons, List.flatten_cons, List.append_assoc,
        show ['\n'] ++ (rs.map (fun r => r ++ ['\n'])).flatten =
          '\n' :: (rs.map (fun r => r ++ ['\n'])).flatten from rfl,
        splitChar_append_cons _ _ _ (h r (by simp)), ih (fun x hx => h x (by simp [hx]))]
      rfl
  simp only [pyLines, hsplit, List.getLast?_concat]
  simp [List.dropLast_concat]

/-- Members of a join are the separator or come from some part. -/
theorem mem_joinChar {sep : Char} {parts : List (List Char)} {c : Char}
    (hc : c ∈ joinChar sep parts) : c = sep ∨ ∃ p ∈ parts, c ∈ p := by
  induction parts with
  | nil => simp [joinChar] at hc
  | cons x ps ih =>
    cases ps with
    | nil => exact Or.inr ⟨x, by simp, hc⟩
    | cons y t =>
      rw [show joinChar sep (x :: y :: t) = x ++ sep :: joinChar sep (y :: t) from rfl] at hc
      rcases List.mem_append.mp hc with hx | hrest
      · exact Or.inr ⟨x, by simp, hx⟩
      · rcases List.mem_cons.mp hrest with hs | hj
        · exact Or.inl hs
        · rcases ih hj with hs | ⟨p, hp, hcp⟩
          · exact Or.inl hs
          · exact Or.inr ⟨p, by simp [hp], hcp⟩

/-- First-occurrence deduplication fixes duplicate-free lists. -/
theorem firstDedup_nodup {l : List String} (h : l.Nodup) : firstDedup l = l := by
  induction l with
  | nil => rfl
  | cons c t ih =>
    rw [firstDedup, ih (List.Nodup.of_cons h)]
    rw [List.filter_eq_self.mpr]
    intro x hx
    have : x ≠ c := by
      intro he
      exact (List.nodup_cons.mp h).1 (he ▸ hx)
    simp [this]

/-! ### The column-append fold of from_csv -/

/-- Appending to a named column leaves the key sequence unchanged. -/
theorem appendAt_map_fst (cols : List (String × List Value)) (c : String) (v : Value) :
    (appendAt cols c v).map Prod.fst = cols.map Prod.fst := by
  induction cols with
  | nil => rfl
  | cons q t ih =>
    obtain ⟨k, vs⟩ := q
    rw [appendAt]
    split_ifs with h
    · simp
    · simp [ih]

/-- The whole per-line fold leaves the key sequence unchanged. -/
theorem foldl_appendAt_map_fst (pairs : List (String × String))
    (cols : List (String × List Value)) :
    (pairs.foldl (fun cs p => appendAt cs p.1 (inferVal p.2)) cols).map Prod.fst =
      cols.map Prod.fst := by
  induction pairs generalizing cols with
  | nil => rfl
  | cons p t ih => rw [List.foldl_cons, ih, appendAt_map_fst]

/-- Appends whose keys avoid the head column pass over it. -/
theorem foldl_appendAt_head_skip (pairs : List (String × String)) (k : String)
    (vs : List Value) (cols : List (String × List Value)) (h : ∀ p ∈ pairs, p.1 ≠ k) :
    pairs.foldl (fun cs p => appendAt cs p.1 (inferVal p.2)) ((k, vs) :: cols) =
      (k, vs) :: pairs.foldl (fun cs p => appendAt cs p.1 (inferVal p.2)) cols := by
  induction pairs generalizing cols with
  | nil => rfl
  | cons p t ih =>
    rw [List.foldl_cons, appendAt, if_neg (fun he => (h p (by simp)) he.symm),
      List.foldl_cons, ih (appendAt cols p.1 (inferVal p.2)) (fun q hq => h q (by simp [hq]))]

/-- Pointwise effect of one data line on the column mapping: column `j`
receives the inferred `j`-th field when the line has one, and is untouched
otherwise. -/
theorem foldl_appendAt_zip (names : List String) (cols : List (String × List Value))
    (vals : List String) (hmap : cols.map Prod.fst = names) (hnodup : names.Nodup) :
    ∀ j : Nat, ((names.zip vals).foldl (fun cs p => appendAt cs p.1 (inferVal p.2)) cols)[j]? =
      (cols[j]?).map (fun q => (q.1, q.2 ++ ((vals[j]?).map (fun v => [inferVal v])).getD [])) := by
  induction cols generalizing names vals with
  | nil =>
    have : names = [] := by simpa using hmap.symm
    subst this
    intro j
    simp
  | cons q cols' ih =>
    obtain ⟨k, vs⟩ := q
    obtain ⟨names', rfl⟩ : ∃ names', names = k :: names' := ⟨cols'.map Prod.fst, by simp [← hmap]⟩
    have hmap' : cols'.map Prod.fst = names' := by simpa using hmap
    cases vals with
    | nil =>
      intro j
      simp
    | cons v vt =>
      intro j
      rw [List.zip_cons_cons, List.foldl_cons, appendAt, if_pos rfl,
        foldl_appendAt_head_skip _ _ _ _ (fun p hp => by
          intro he
          have hm : p.1 ∈ names' := by
            have := List.of_mem_zip hp
            exact this.1
          exact (List.nodup_cons.mp hnodup).1 (he ▸ hm))]
      cases j with
      | zero => simp
      | succ j =>
        simpa using ih names' vt hmap' (List.Nodup.of_cons hnodup) j

/-- Pointwise description of the full data fold of `from_csv`: under a
duplicate-free header, column `j` collects, in order, the inferred value of
the `j`-th field of every data line that has at least `j + 1` fields. -/
theorem foldl_processLine_getElem (header : List String) (hnodup : header.Nodup)
    (lines : List (List Char)) :
    ∀ j : Nat, ((lines.foldl (processLine header) (initColumns header)))[j]? =
      (header[j]?).map (fun c =>
        (c, (lines.filterMap (fun l => (fieldsOf l)[j]?)).map (fun s => inferVal s))) := by
  induction lines using List.reverseRecOn with
  | nil =>
    intro j
    simp only [List.foldl_nil, initColumns, firstDedup_nodup hnodup, List.filterMap_nil,
      List.map_nil, List.getElem?_map]
  | append_singleton lines l ih =>
    intro j
    rw [List.foldl_append, List.foldl_cons, List.foldl_nil]
    have hkeys : ((lines.foldl (processLine header) (initColumns header))).map Prod.fst
        = header := by
      have hinit : (initColumns header).map Prod.fst = header := by
        simp only [initColumns, firstDedup_nodup hnodup, List.map_map]
        have hcomp : (Prod.fst ∘ fun c : String => (c, ([] : List Value))) = id := rfl
        rw [hcomp, List.map_id]
      clear ih
      induction lines using List.reverseRecOn with
      | nil => exact hinit
      | append_singleton lines' l' ih' =>
        rw [List.foldl_append, List.foldl_cons, List.foldl_nil, processLine,
          foldl_appendAt_map_fst, ih']
    rw [processLine, foldl_appendAt_zip header _ (fieldsOf l) hkeys hnodup j, ih j]
    rw [List.filterMap_append]
    cases hh : header[j]? with
    | none => rfl
    | some c =>
      simp only [Option.map_some, Option.map_map]
      cases hf : (fieldsOf l)[j]? with
      | none => simp [hf]
      | some s => simp [hf]

/-! ### C8 — short CSV lines -/

/-- C8 (confirmed): once the file content yields a header line and data
lines, (i) the import is exactly the constructor applied to the folded
column mapping — parsing itself raises nothing; (ii) under a
duplicate-free header, column `j` receives values only from the data lines
having at least `j + 1` fields, so a short line feeds just its leading
columns and trailing columns get nothing for that row; (iii) if the folded
mapping is uneven, the import fails with the `ValidationError` propagated
from construction. -/
theorem c8_short_lines :
    ∀ (content : String) (hl : List Char) (rest : List (List Char)),
      pyLines content.data = hl :: rest →
      (from_csv content =
        mindf (rest.foldl (processLine (fieldsOf hl)) (initColumns (fieldsOf hl)))) ∧
      ((fieldsOf hl).Nodup →
        ∀ j : Nat,
          (rest.foldl (processLine (fieldsOf hl)) (initColumns (fieldsOf hl)))[j]? =
            ((fieldsOf hl)[j]?).map (fun c =>
              (c, (rest.filterMap (fun l => (fieldsOf l)[j]?)).map (fun s => inferVal s)))) ∧
      (∀ (k0 : String) (v0 : List Value) rest' (k1 : String) (v1 : List Value),
        rest.foldl (processLine (fieldsOf hl)) (initColumns (fieldsOf hl)) = (k0, v0) :: rest' →
        ((k0, v0) :: rest').find? (fun p => p.2.length ≠ v0.length) = some (k1, v1) →
        from_csv content = .error (.ValueError (lengthMismatchMsg k0 v0.length k1 v1.length))) := by
  intro content hl rest hpy
  have hmain : from_csv content =
      mindf (rest.foldl (processLine (fieldsOf hl)) (initColumns (fieldsOf hl))) := by
    rw [from_csv, hpy]
  refine ⟨hmain, fun hnodup j => foldl_processLine_getElem (fieldsOf hl) hnodup rest j,
    fun k0 v0 rest' k1 v1 hfold hfind => ?_⟩
  rw [hmain, hfold]
  exact mindf_mismatch_error k0 v0 rest' k1 v1 hfind

/-- C8 witness: the file `"a,b\n1\n2,3\n"` has a one-field second line;
only column `a` receives its value, and the uneven result raises the
constructor's `ValidationError`. -/
theorem c8_witness :
    pyLines ("a,b\n1\n2,3\n" : String).data = [['a', ',', 'b'], ['1'], ['2', ',', '3']] ∧
    [['1'], ['2', ',', '3']].foldl (processLine (fieldsOf ['a', ',', 'b']))
        (initColumns (fieldsOf ['a', ',', 'b'])) =
      [("a", [Value.VInt 1, Value.VInt 2]), ("b", [Value.VInt 3])] ∧
    from_csv "a,b\n1\n2,3\n" =
      .error (.ValueError (lengthMismatchMsg "a" 2 "b" 1)) := by
  refine ⟨by decide, by decide, ?_⟩
  exact (c8_short_lines "a,b\n1\n2,3\n" ['a', ',', 'b'] [['1'], ['2', ',', '3']]
    (by decide)).2.2 "a" [Value.VInt 1, Value.VInt 2] [("b", [Value.VInt 3])] "b" [Value.VInt 3]
    (by decide) (by decide)

/-- Rebuilding a string from its characters is the identity. -/
theorem stringMk_data (s : String) : String.mk s.data = s := rfl

/-- Characters of a rendered integer: the sign or decimal digits. -/
theorem intStr_chars (z : Int) : ∀ c ∈ (intStr z).data, c = '-' ∨ isDigitC c = true := by
  intro c hc
  rw [intStr, String.data_append] at hc
  rcases List.mem_append.mp hc with h | h
  · split_ifs at h
    · left
      simpa using h
    · simp at h
  · by_cases hn : z.natAbs = 0
    · rw [hn, show natStr 0 = "0" from by decide] at h
      right
      have : c = '0' := by simpa using h
      rw [this]
      decide
    · obtain ⟨hdata, -, hdig, -⟩ := natStr_data z.natAbs (by omega)
      rw [hdata] at h
      exact Or.inr (hdig c h)

/-- Characters of a rendered integer are neither commas nor whitespace. -/
theorem intStr_clean (z : Int) : ∀ c ∈ (intStr z).data, ¬ c = ',' ∧ isPyWs c = false := by
  intro c hc
  rcases intStr_chars z c hc with h | h
  · rw [h]
    exact ⟨by decide, by decide⟩
  · exact ⟨digit_ne h (by decide), isPyWs_of_digit h⟩

/-- A non-whitespace character is not the newline. -/
theorem ne_newline_of_not_ws {c : Char} (h : isPyWs c = false) : ¬ c = '\n' := by
  intro he
  rw [he] at h
  exact absurd h (by decide)

/-- The characters written for one CSV record. -/
theorem data_joinComma_newline (fields : List String) :
    (joinComma fields ++ "\n").data = joinChar ',' (fields.map String.data) ++ ['\n'] := by
  rw [String.data_append]
  rfl

/-- Reading every position of a list back off with a default rebuilds it. -/
theorem range_map_getD {α : Type} (l : List α) (d : α) :
    (List.range l.length).map (fun i => l.getD i d) = l := by
  refine List.ext_getElem? (fun i => ?_)
  rw [List.getElem?_map]
  by_cases hi : i < l.length
  · rw [List.getElem?_range hi, List.getElem?_eq_getElem hi]
    simp [List.getD_eq_getElem?_getD, List.getElem?_eq_getElem hi]
  · rw [List.getElem?_eq_none (by simpa using hi), List.getElem?_eq_none (by omega)]
    rfl

/-- `filterMap` by an everywhere-`some` function is a `map`. -/
theorem filterMap_congr_some {α β : Type} (l : List α) (f : α → Option β) (g : α → β)
    (h : ∀ x ∈ l, f x = some (g x)) : l.filterMap f = l.map g := by
  induction l with
  | nil => rfl
  | cons a t ih =>
    rw [List.filterMap_cons, h a (by simp), List.map_cons, ih (fun x hx => h x (by simp [hx]))]

/-- The constructor succeeds on any nonempty mapping of equal-length
columns, storing the mapping and the common length. -/
theorem mindf_ok_all_eq (data : List (String × List Value)) (len : Nat)
    (hne : data ≠ []) (hall : ∀ p ∈ data, p.2.length = len) :
    mindf data = .ok ⟨data, len⟩ := by
  match data with
  | [] => exact absurd rfl hne
  | (k0, v0) :: rest =>
    have h0 : v0.length = len := hall (k0, v0) (by simp)
    have hnone : ((k0, v0) :: rest).find? (fun p => p.2.length ≠ v0.length) = none := by
      refine List.find?_eq_none.mpr (fun p hp => ?_)
      simp [hall p hp, h0]
    simp only [mindf, hnone]
    rw [h0]

/-- C2 (amended): on a store of small integer cells (magnitude at most
`2 ^ 53`) with duplicate-free, comma/whitespace-free column names,
importing the exported CSV reproduces the store exactly: same column
names, same order, same values. -/
theorem c2_roundtrip_amended :
    ∀ df : MinDF, WF df → df.data ≠ [] →
      (df.data.map Prod.fst).Nodup →
      (∀ name ∈ df.data.map Prod.fst, ∀ c ∈ name.data, ¬ c = ',' ∧ isPyWs c = false) →
      (∀ p ∈ df.data, ∀ v ∈ p.2, ∃ z : Int, v = .VInt z ∧ z.natAbs ≤ 2 ^ 53) →
      ∀ content, df.to_csv = some content → from_csv content = .ok df := by
  intro df hwf hne hnodup hnames hcells content hcsv
  -- the per-cell facts, resolved through the length invariant
  have hcellstr : ∀ p ∈ df.data, ∀ i < df.count_rows,
      ∃ z : Int, p.2.getD i (.VStr "") = .VInt z ∧ z.natAbs ≤ 2 ^ 53 ∧
        strOfValue (p.2.getD i (.VStr "")) = intStr z := by
    intro p hp i hi
    have hlen := hwf p hp
    have hmem : p.2.getD i (.VStr "") ∈ p.2 := by
      rw [List.getD_eq_getElem?_getD, List.getElem?_eq_getElem (by
        rw [hlen]; exact hi)]
      exact List.getElem_mem _
    obtain ⟨z, hz, hz53⟩ := hcells p hp _ hmem
    exact ⟨z, hz, hz53, by rw [hz]; rfl⟩
  -- the written records
  have hcontent : content.data = (df.csvWrites.map String.data).flatten := by
    rw [MinDF.to_csv, if_neg (by simpa using hne)] at hcsv
    injection hcsv with h
    rw [← h]
  have hwrites : df.csvWrites.map String.data =
      ((joinChar ',' ((df.data.map Prod.fst).map String.data)) ::
        (List.range df.count_rows).map (fun i =>
          joinChar ',' ((df.data.map (fun p =>
            strOfValue (p.2.getD i (.VStr "")))).map String.data))).map
        (fun r => r ++ ['\n']) := by
    simp only [MinDF.csvWrites, MinDF.keysList, List.map_cons]
    refine congrArg₂ _ ?_ ?_
    · rw [data_joinComma_newline]
    · rw [List.map_map, List.map_map]
      refine List.map_congr_left (fun i _ => ?_)
      show (joinComma (df.data.map (fun p => strOfValue (p.2.getD i (.VStr "")))) ++ "\n").data = _
      rw [data_joinComma_newline, List.map_map]
      simp [Function.comp]
  -- whitespace- and newline-freedom of the records
  have hheader_ws : ∀ c ∈ joinChar ',' ((df.data.map Prod.fst).map String.data),
      isPyWs c = false := by
    intro c hc
    rcases mem_joinChar hc with rfl | ⟨p, hp, hcp⟩
    · decide
    · obtain ⟨name, hname, rfl⟩ := List.mem_map.mp hp
      exact (hnames name hname c hcp).2
  have hrow_ws : ∀ i < df.count_rows,
      ∀ c ∈ joinChar ',' ((df.data.map (fun p =>
        strOfValue (p.2.getD i (.VStr "")))).map String.data), isPyWs c = false := by
    intro i hi c hc
    rcases mem_joinChar hc with rfl | ⟨s, hs, hcs⟩
    · decide
    · rw [List.map_map] at hs
      obtain ⟨p, hp, rfl⟩ := List.mem_map.mp hs
      obtain ⟨z, -, -, hstr⟩ := hcellstr p hp i hi
      have : c ∈ (intStr z).data := by
        rw [← hstr]
        exact hcs
      exact (intStr_clean z c this).2
  have hlines : pyLines content.data =
      (joinChar ',' ((df.data.map Prod.fst).map String.data)) ::
        (List.range df.count_rows).map (fun i =>
          joinChar ',' ((df.data.map (fun p =>
            strOfValue (p.2.getD i (.VStr "")))).map String.data)) := by
    rw [hcontent, hwrites]
    refine pyLines_of_records _ (fun r hr => ?_)
    rcases List.mem_cons.mp hr with rfl | hr
    · intro hnl
      exact absurd (hheader_ws '\n' hnl) (by decide)
    · obtain ⟨i, hi, rfl⟩ := List.mem_map.mp hr
      intro hnl
      exact absurd (hrow_ws i (by simpa using hi) '\n' hnl) (by decide)
  -- the parsed header is the name list
  have hfields_header :
      fieldsOf (joinChar ',' ((df.data.map Prod.fst).map String.data)) =
        df.data.map Prod.fst := by
    rw [fieldsOf, trimChars_eq_self hheader_ws,
      splitChar_joinChar ',' _ (by simpa using hne) (fun p hp => ?_), List.map_map]
    · have hcomp : ((fun f => String.mk f) ∘ String.data) = id := rfl
      rw [hcomp, List.map_id]
    · obtain ⟨name, hname, rfl⟩ := List.mem_map.mp hp
      intro hcm
      exact (hnames name hname ',' hcm).1 rfl
  -- each data line splits back into its cell renderings
  have hfields_row : ∀ i < df.count_rows,
      fieldsOf (joinChar ',' ((df.data.map (fun p =>
        strOfValue (p.2.getD i (.VStr "")))).map String.data)) =
        df.data.map (fun p => strOfValue (p.2.getD i (.VStr ""))) := by
    intro i hi
    rw [fieldsOf, trimChars_eq_self (hrow_ws i hi),
      splitChar_joinChar ',' _ (by simpa using hne) (fun s hs => ?_), List.map_map]
    · have hcomp : ((fun f => String.mk f) ∘ String.data) = id := rfl
      rw [hcomp, List.map_id]
    · rw [List.map_map] at hs
      obtain ⟨p, hp, rfl⟩ := List.mem_map.mp hs
      obtain ⟨z, -, -, hstr⟩ := hcellstr p hp i hi
      intro hcm
      have : (',' : Char) ∈ (intStr z).data := by
        rw [← hstr]
        exact hcm
      exact (intStr_clean z ',' this).1 rfl
  -- the fold rebuilds exactly the original columns
  have hparsed :
      ((List.range df.count_rows).map (fun i =>
          joinChar ',' ((df.data.map (fun p =>
            strOfValue (p.2.getD i (.VStr "")))).map String.data))).foldl
        (processLine (df.data.map Prod.fst)) (initColumns (df.data.map Prod.fst)) =
      df.data := by
    refine List.ext_getElem? (fun j => ?_)
    rw [foldl_processLine_getElem (df.data.map Prod.fst) hnodup _ j,
      List.filterMap_map, List.getElem?_map]
    cases hj : df.data[j]? with
    | none => rfl
    | some q =>
      have hqmem : q ∈ df.data := List.get?_mem (by rw [List.get?_eq_getElem?]; exact hj)
      have hfm : (List.range df.count_rows).filterMap ((fun l => (fieldsOf l)[j]?) ∘ fun i =>
          joinChar ',' ((df.data.map (fun p =>
            strOfValue (p.2.getD i (.VStr "")))).map String.data)) =
          (List.range df.count_rows).map (fun i => strOfValue (q.2.getD i (.VStr ""))) := by
        refine filterMap_congr_some _ _ _ (fun i hi => ?_)
        have hiL : i < df.count_rows := by simpa using hi
        show (fieldsOf _)[j]? = _
        rw [hfields_row i hiL, List.getElem?_map, hj]
        rfl
      rw [hfm]
      have hvals : (List.range df.count_rows).map
          ((fun s => inferVal s) ∘ fun i => strOfValue (q.2.getD i (.VStr ""))) = q.2 := by
        have hlen : q.2.length = df.count_rows := hwf q hqmem
        have hstep : (List.range df.count_rows).map
            ((fun s => inferVal s) ∘ fun i => strOfValue (q.2.getD i (.VStr ""))) =
            (List.range df.count_rows).map (fun i => q.2.getD i (.VStr "")) := by
          refine List.map_congr_left (fun i hi => ?_)
          have hiL : i < df.count_rows := by simpa using hi
          obtain ⟨z, hz, hz53, hstr⟩ := hcellstr q hqmem i hiL
          show inferVal (strOfValue (q.2.getD i (.VStr ""))) = q.2.getD i (.VStr "")
          rw [hstr, inferVal_intStr z hz53, hz]
        rw [hstep, show df.count_rows = q.2.length from hlen.symm, range_map_getD]
      simp only [Option.map_some, List.map_map]
      rw [hvals]
      simp
  -- construction of the re-imported store succeeds and reproduces df
  have hok : mindf df.data = .ok df := by
    rw [mindf_ok_all_eq df.data df._length hne hwf]
  simp only [from_csv, hlines]
  rw [hfields_header, hparsed]
  exact hok

/-- C2 witness: a concrete 2×2 integer store exports to
`"a,b\n1,3\n2,4\n"` and imports back to itself. -/
theorem c2_witness :
    (MinDF.mk [("a", [Value.VInt 1, Value.VInt 2]), ("b", [Value.VInt 3, Value.VInt 4])] 2).to_csv =
      some "a,b\n1,3\n2,4\n" ∧
    from_csv "a,b\n1,3\n2,4\n" =
      .ok (MinDF.mk [("a", [Value.VInt 1, Value.VInt 2]), ("b", [Value.VInt 3, Value.VInt 4])] 2) := by
  have hc : ∀ p ∈ ([("a", [Value.VInt 1, Value.VInt 2]), ("b", [Value.VInt 3, Value.VInt 4])] :
      List (String × List Value)), ∀ v ∈ p.2, ∃ z : Int, v = .VInt z ∧ z.natAbs ≤ 2 ^ 53 := by
    intro p hp v hv
    fin_cases hp <;> fin_cases hv
    · exact ⟨1, rfl, by decide⟩
    · exact ⟨2, rfl, by decide⟩
    · exact ⟨3, rfl, by decide⟩
    · exact ⟨4, rfl, by decide⟩
  refine ⟨by decide, ?_⟩
  exact c2_roundtrip_amended
    (MinDF.mk [("a", [Value.VInt 1, Value.VInt 2]), ("b", [Value.VInt 3, Value.VInt 4])] 2)
    (by decide) (by decide) (by decide) (by decide) hc "a,b\n1,3\n2,4\n" (by decide)
